import Mathlib

/-!
Verification of the redux-helper action-boilerplate generator (`src/main.ts`).

The generator reads a TypeScript file of `interface` declarations ("actions"),
each optionally carrying JSDoc tags of the form `@name [<json>]`, and emits:
an enum of action constants, a metadata table, per-action payload types, a
union type, and action-creator functions.

We shallowly embed the program's data model and its pure generation functions.
Strings are Lean `String`s (lists of characters); the JS regular-expression
split, `Array.prototype.join`, `String.prototype.split` and the object
mutation semantics used by the source are modelled by explicit recursive
functions on `List Char` / association lists, as documented at each
definition.  The ambient `flags.feature` command-line flag is threaded as an
explicit `Option String` parameter; the TypeScript parser and `JSON.parse`
are external collaborators and appear as abstract inputs.
-/

namespace ReduxHelper

/-- JSON values, the closed sum needed to round-trip the data-interchange
values that annotation arguments may carry (source `Annotation.arg`,
typed `{}` in TypeScript). -/
inductive Json where
  | bool (b : Bool)
  | num (n : Int)
  | str (s : String)
  | arr (elems : List Json)
  | obj (members : List (String × Json))

/-- A single field of an action (source interface `ActionField`).
`type` is the field's declared type rendered as opaque text. -/
structure ActionField where
  name : String
  type : String
  optional : Bool

/-- An annotation on an action (source interface `Annotation `):
a JSDoc tag `@name [<json>]`; `arg` defaults to `true` when the tag has no
argument text. -/
structure Annotation where
  name : String
  arg : Json

/-- An action: its name, annotations and fields (source interface
`ActionDesc`). -/
structure ActionDesc where
  name : String
  annotations : List Annotation
  fields : List ActionField

/-! ## JavaScript object model

`getMeta` builds a plain JS object by repeated property assignment.  A JS
object is modelled as an insertion-ordered association list; assigning an
existing key updates the value in place, assigning a fresh key appends. -/

/-- JS property assignment `m[k] = v`: update in place if `k` is present,
else append at the end. -/
def setKey (k : String) (v : Json) : List (String × Json) → List (String × Json)
  | [] => [(k, v)]
  | (k', v') :: rest => if k' = k then (k', v) :: rest else (k', v') :: setKey k v rest

/-- JS property lookup `m[k]`. -/
def getKey (k : String) : List (String × Json) → Option Json
  | [] => none
  | (k', v) :: rest => if k' = k then some v else getKey k rest

/-! ## Identifier transformer (source `toUnixStyle`, `toSentence`,
`uncapitalise`)

The source computes `str.split(/()(?=[A-Z])/g)`: the string is split before
each uppercase ASCII letter (an empty lookahead match at position 0 produces
no split, per ECMAScript split semantics), and the empty capture group
inserts an empty string between every two split pieces.  `splitCaps` returns
the split pieces; interspersing `[]` between them models the captured empty
strings. -/

/-- Pieces of `l` split before each uppercase ASCII letter (except at
position 0); `acc` holds the current piece, reversed. -/
def splitCapsAux (acc : List Char) : List Char → List (List Char)
  | [] => [acc.reverse]
  | c :: cs => if c.isUpper then acc.reverse :: splitCapsAux [c] cs else splitCapsAux (c :: acc) cs

/-- Split a string (as a character list) before each uppercase ASCII letter;
a split is never produced at position 0. -/
def splitCaps : List Char → List (List Char)
  | [] => []
  | c :: cs => splitCapsAux [c] cs

/-- JS `Array.prototype.join` with separator `sep`, on character lists. -/
def joinChars (sep : List Char) : List (List Char) → List Char
  | [] => []
  | [x] => x
  | x :: y :: t => x ++ sep ++ joinChars sep (y :: t)

/-- JS `String.prototype.split` with a one-character plain-string separator,
on character lists: `"" ↦ [""]`, separators at the ends produce empty
pieces. -/
def jsSplitChars (sep : Char) : List Char → List (List Char)
  | [] => [[]]
  | c :: cs =>
    match jsSplitChars sep cs with
    | [] => [[c]]
    | h :: t => if c = sep then [] :: h :: t else (c :: h) :: t

/-- Source `toUnixStyle` on character lists:
`str.split(/()(?=[A-Z])/g).map(s => s.toUpperCase()).filter(s => s).join("_")`.
The split result (pieces with interspersed empty captures) is uppercased,
truthy (non-empty) strings are kept, and the rest joined with `_`. -/
def toUnixChars (l : List Char) : List Char :=
  joinChars ['_']
    (((List.intersperse [] (splitCaps l)).map (fun s => s.map Char.toUpper)).filter
      (fun s => !s.isEmpty))

/-- Source `toUnixStyle`: converts `fooBar` to `FOO_BAR`. -/
def toUnixStyle (s : String) : String :=
  String.mk (toUnixChars s.data)

/-- Source `toSentence` on character lists:
`toUnixStyle(str).split("_").map(s => s.toLowerCase()).join(" ")`. -/
def toSentenceChars (l : List Char) : List Char :=
  joinChars [' '] ((jsSplitChars '_' (toUnixChars l)).map (fun s => s.map Char.toLower))

/-- Source `toSentence`: converts `fooBarBaz` to `foo bar baz`. -/
def toSentence (s : String) : String :=
  String.mk (toSentenceChars s.data)

/-- Source `uncapitalise`: `s.charAt(0).toLowerCase() + s.slice(1)`
(lowercase only the first character). -/
def uncapitalise (s : String) : String :=
  match s.data with
  | [] => ""
  | c :: cs => String.mk (Char.toLower c :: cs)

/-! ## Metadata builder and emitters

`flags.feature` is threaded as `feature : Option String`.  The source tests
the flag with JS truthiness (`if (flags.feature)`), so an empty-string flag
value behaves like an absent flag; each use site models this with an
explicit emptiness test. -/

/-- Source `getActionTypeValue`: the enum value string, `toSentence` of the
action name, prefixed with `"[<feature>] "` when the feature flag is set
(truthy). -/
def getActionTypeValue (feature : Option String) (action : ActionDesc) : String :=
  (match feature with
   | some f => if f = "" then "" else "[" ++ f ++ "] "
   | none => "") ++ toSentence action.name

/-- Source `getMeta`: fold the annotations into an empty object in
declaration order (`acc[ann.name] = ann.arg`), then, when the feature flag
is set, assign `obj["feature"] = flags.feature` last. -/
def getMeta (feature : Option String) (action : ActionDesc) : List (String × Json) :=
  let obj := action.annotations.foldl (fun acc ann => setKey ann.name ann.arg acc) []
  match feature with
  | some f => if f = "" then obj else setKey "feature" (Json.str f) obj
  | none => obj

/-- Source `genActionsEnum`: the `export enum Actions` block, one member per
action, joined with newlines. -/
def genActionsEnum (feature : Option String) (actions : List ActionDesc) : String :=
  String.intercalate "\n"
    (["export enum Actions \x7b"] ++
     actions.map (fun a => "  " ++ toUnixStyle a.name ++ " = \"" ++ getActionTypeValue feature a ++ "\",") ++
     ["\x7d"])

/-- JSON string escaping as performed by `JSON.stringify` on the strings in
scope here (no control characters): escape backslash and double quote. -/
def jsonEscape (s : String) : String :=
  String.join (s.data.map (fun c => if c = '"' then "\\\"" else if c = '\\' then "\\\\" else String.mk [c]))

mutual

/-- `JSON.stringify(v, null, 2)`: pretty-printed JSON with two-space
indentation; `pad` is the current indentation of the enclosing value. -/
def stringify (pad : String) : Json → String
  | .bool b => if b then "true" else "false"
  | .num n => toString n
  | .str s => "\"" ++ jsonEscape s ++ "\""
  | .arr [] => "[]"
  | .arr (x :: xs) =>
      "[\n" ++ String.intercalate ",\n" (stringifyItems (pad ++ "  ") (x :: xs)) ++ "\n" ++ pad ++ "]"
  | .obj [] => "\x7b\x7d"
  | .obj (m :: ms) =>
      "\x7b\n" ++ String.intercalate ",\n" (stringifyMembers (pad ++ "  ") (m :: ms)) ++ "\n" ++ pad ++ "\x7d"

/-- Array items of `stringify`, each on its own indented line. -/
def stringifyItems (pad : String) : List Json → List String
  | [] => []
  | x :: xs => (pad ++ stringify pad x) :: stringifyItems pad xs

/-- Object members of `stringify`, each on its own indented line. -/
def stringifyMembers (pad : String) : List (String × Json) → List String
  | [] => []
  | (k, v) :: ms => (pad ++ "\"" ++ jsonEscape k ++ "\": " ++ stringify pad v) :: stringifyMembers pad ms

end

/-- Source `genMetadata`: the `export const metadata` table, one entry per
action mapping its enum constant to `JSON.stringify(getMeta(a), null, 2)`. -/
def genMetadata (feature : Option String) (actions : List ActionDesc) : String :=
  String.intercalate "\n"
    (["export const metadata = \x7b"] ++
     actions.map (fun a =>
       "  [Actions." ++ toUnixStyle a.name ++ "]: " ++ stringify "" (Json.obj (getMeta feature a)) ++ ",") ++
     ["\x7d;"])

/-- Source `genActionType`: the per-action payload interface. -/
def genActionType (action : ActionDesc) : String :=
  String.intercalate "\n"
    ["export interface " ++ action.name ++ "Action extends PayloadAction<actions." ++ action.name ++ "> \x7b",
     "  type: typeof Actions." ++ toUnixStyle action.name ++ ";",
     "\x7d"]

/-- Source `genActionsUnion`: the union of all action types. -/
def genActionsUnion (actions : List ActionDesc) : String :=
  String.intercalate "\n"
    (["export type Action = "] ++ actions.map (fun a => "  | " ++ a.name ++ "Action") ++ ["  ;"])

/-- Source `genActionTypes`: all payload interfaces, blank-line separated. -/
def genActionTypes (actions : List ActionDesc) : String :=
  String.intercalate "\n\n" (actions.map genActionType)

/-- Source `genActionCreator`: the action-creator function for one action.
The source computes `const meta = getMeta(action)` and never uses it; the
unused binding is kept. -/
def genActionCreator (feature : Option String) (action : ActionDesc) : String :=
  let actionType := action.name ++ "Action"
  let actionEnum := toUnixStyle action.name
  let actionCreator := uncapitalise action.name
  let _meta := getMeta feature action
  String.intercalate "\n"
    (["export function " ++ actionCreator ++ "("] ++
     action.fields.map (fun f => "  " ++ f.name ++ (if f.optional then "?" else "") ++ ": " ++ f.type ++ ",") ++
     ["): " ++ actionType ++ " \x7b",
      "  return \x7b",
      "    type: Actions." ++ actionEnum ++ ",",
      "    payload: \x7b"] ++
     action.fields.map (fun f => "      " ++ f.name ++ ",") ++
     ["    \x7d,",
      "    meta: metadata[Actions." ++ actionEnum ++ "],",
      "  \x7d;",
      "\x7d"])

/-- Source `genActionCreators`: all creators, blank-line separated. -/
def genActionCreators (feature : Option String) (actions : List ActionDesc) : String :=
  String.intercalate "\n\n" (actions.map (genActionCreator feature))

/-- Source `payloadActionDefinition` template literal (starts with a
newline, exactly as in the backtick template). -/
def payloadActionDefinition : String :=
  "\ninterface PayloadAction<P> extends redux.Action \x7b\n  payload: P;\n  meta: \x7b\x7d;\n\x7d"

/-! ## Annotation parsing and the driver

`JSON.parse` is external; it is passed in as `parse : String → Option Json`
(`none` models a thrown `SyntaxError`).  A tag's text is `Option String`
(`undefined` or a string); the source tests it with JS truthiness, so empty
text also yields `arg = true`. -/

/-- One annotation from a raw JSDoc tag, source line
`\x7b name: tag.name, arg: tag.text ? JSON.parse(tag.text) : true \x7d`;
`none` when `JSON.parse` throws. -/
def annFromTag (parse : String → Option Json) (tag : String × Option String) : Option Annotation :=
  match tag.2 with
  | none => some ⟨tag.1, Json.bool true⟩
  | some t => if t = "" then some ⟨tag.1, Json.bool true⟩
              else (parse t).map (fun v => (⟨tag.1, v⟩ : Annotation ))

/-- All annotations of a declaration (source `symbol.getJsDocTags().map`);
the first thrown parse error aborts the whole list. -/
def parseAnnotations (parse : String → Option Json) (tags : List (String × Option String)) : Option (List Annotation ) :=
  tags.mapM (annFromTag parse)

/-- The sequence of `writer.write` calls made by source `run` after
extraction succeeds: `some s` for `write(s)`, `none` for the bare `write()`
separators. -/
def runWrites (feature : Option String) (actions : List ActionDesc) (imports : List String) : List (Option String) :=
  [some "import * as redux from \"redux\"",
   some "import * as actions from \"./actions\";\n",
   some (String.intercalate "\n" imports ++ "\n"),
   some (genActionsEnum feature actions),
   none,
   some (genMetadata feature actions),
   none,
   some payloadActionDefinition,
   some (genActionTypes actions),
   none,
   some (genActionsUnion actions),
   none,
   some (genActionCreators feature actions)]

/-- Source `run`: extraction (parsing the input file with the external
TypeScript compiler and collecting actions and import statements) happens
before the first `writer.write`; the extraction outcome is passed in as an
`Except`.  An extraction error propagates and nothing is written. -/
def run (feature : Option String) (extracted : Except String (List ActionDesc × List String)) :
    Except String (List (Option String)) :=
  match extracted with
  | .error e => .error e
  | .ok (actions, imports) => .ok (runWrites feature actions imports)

/-! ## Auxiliary predicates used by claim statements -/

/-- ASCII identifier characters: letters, digits, underscore, dollar. -/
def isIdentChar (c : Char) : Bool :=
  c.isAlpha || c.isDigit || c == '_' || c == '$'

/-- A non-degenerate ASCII identifier-shaped string: every character is an
identifier character. -/
def identShaped (s : String) : Bool :=
  s.data.all isIdentChar

/-- The claim's description of `toConstantCase`: split before each uppercase
letter (a run of uppercase letters starts a new segment at each of its
letters, the first included), uppercase every segment, join with `_`. -/
def toConstantCaseSpec (s : String) : String :=
  String.mk (joinChars ['_'] ((splitCaps s.data).map (fun seg => seg.map Char.toUpper)))

/-- The last annotation named `k`, if any — the value the spec's
last-write-wins merge assigns to key `k`. -/
def lastArg (k : String) : List Annotation → Option Json
  | [] => none
  | ann :: rest =>
    match lastArg k rest with
    | some v => some v
    | none => if ann.name = k then some ann.arg else none

/-- JS `String.prototype.split` with a one-character separator, on
strings. -/
def jsSplitOn (sep : Char) (s : String) : List String :=
  (jsSplitChars sep s.data).map String.mk

/-- Lowercase every character (JS `toLowerCase` on ASCII). -/
def strLower (s : String) : String :=
  String.mk (s.data.map Char.toLower)

end ReduxHelper

namespace ReduxHelper

/-! ## Lemmas: JS object assignment -/

theorem getKey_setKey (k k' : String) (v : Json) (m : List (String × Json)) :
    getKey k (setKey k' v m) = if k' = k then some v else getKey k m := by
  induction m with
  | nil =>
    simp only [setKey, getKey]
  | cons hd tl ih =>
    obtain ⟨k'', v''⟩ := hd
    by_cases h1 : k'' = k'
    · subst h1
      by_cases h2 : k'' = k
      · subst h2
        simp [setKey, getKey]
      · simp [setKey, getKey, h2]
    · by_cases h2 : k'' = k
      · subst h2
        simp [setKey, getKey, h1, Ne.symm h1]
      · simp [setKey, getKey, h1, h2, ih]

theorem getKey_foldl (k : String) (anns : List Annotation ) (m : List (String × Json)) :
    getKey k (anns.foldl (fun acc ann => setKey ann.name ann.arg acc) m)
      = (lastArg k anns).elim (getKey k m) some := by
  induction anns generalizing m with
  | nil => simp [lastArg, List.foldl]
  | cons ann rest ih =>
    rw [List.foldl_cons, ih, getKey_setKey]
    cases hrest : lastArg k rest with
    | some v => simp [lastArg, hrest]
    | none =>
      by_cases h : ann.name = k
      · simp [lastArg, hrest, h]
      · simp [lastArg, hrest, h]

/-! ## Lemmas: uppercase-boundary segmentation -/

theorem splitCapsAux_ne_nil (cs : List Char) :
    ∀ (acc : List Char), acc ≠ [] → ∀ s ∈ splitCapsAux acc cs, s ≠ [] := by
  induction cs with
  | nil =>
    intro acc hacc s hs
    simp only [splitCapsAux, List.mem_singleton] at hs
    subst hs
    simpa using hacc
  | cons c cs ih =>
    intro acc hacc s hs
    simp only [splitCapsAux] at hs
    by_cases hc : c.isUpper
    · rw [if_pos hc] at hs
      rcases List.mem_cons.mp hs with h | h
      · subst h
        simpa using hacc
      · exact ih [c] (by simp) s h
    · rw [if_neg hc] at hs
      exact ih (c :: acc) (by simp) s hs

theorem splitCaps_ne_nil (l : List Char) : ∀ s ∈ splitCaps l, s ≠ [] := by
  cases l with
  | nil => intro s hs; simp [splitCaps] at hs
  | cons c cs => exact splitCapsAux_ne_nil cs [c] (by simp)

theorem mem_splitCapsAux (cs : List Char) :
    ∀ (acc s : List Char), s ∈ splitCapsAux acc cs → ∀ c ∈ s, c ∈ acc ∨ c ∈ cs := by
  induction cs with
  | nil =>
    intro acc s hs c hc
    simp only [splitCapsAux, List.mem_singleton] at hs
    subst hs
    exact Or.inl (List.mem_reverse.mp hc)
  | cons d ds ih =>
    intro acc s hs c hc
    simp only [splitCapsAux] at hs
    by_cases hd : d.isUpper
    · rw [if_pos hd] at hs
      rcases List.mem_cons.mp hs with h | h
      · subst h
        exact Or.inl (List.mem_reverse.mp hc)
      · rcases ih [d] s h c hc with h' | h'
        · simp only [List.mem_singleton] at h'
          subst h'
          exact Or.inr (List.mem_cons_self _ _)
        · exact Or.inr (List.mem_cons_of_mem _ h')
    · rw [if_neg hd] at hs
      rcases ih (d :: acc) s hs c hc with h' | h'
      · rcases List.mem_cons.mp h' with h'' | h''
        · subst h''
          exact Or.inr (List.mem_cons_self _ _)
        · exact Or.inl h''
      · exact Or.inr (List.mem_cons_of_mem _ h')

theorem mem_splitCaps (l s : List Char) (hs : s ∈ splitCaps l) :
    ∀ c ∈ s, c ∈ l := by
  cases l with
  | nil => simp [splitCaps] at hs
  | cons d ds =>
    intro c hc
    rcases mem_splitCapsAux ds [d] s hs c hc with h | h
    · simp only [List.mem_singleton] at h
      subst h
      exact List.mem_cons_self _ _
    · exact List.mem_cons_of_mem _ h

/-! ## Lemmas: intersperse / filter / join -/

theorem mem_intersperse {α : Type} (sep x : α) :
    ∀ (l : List α), x ∈ List.intersperse sep l → x = sep ∨ x ∈ l
  | [], h => by simp [List.intersperse] at h
  | [a], h => by
      simp only [List.intersperse, List.mem_singleton] at h
      exact Or.inr (by simp [h])
  | a :: b :: t, h => by
      simp only [List.intersperse, List.mem_cons] at h
      rcases h with h | h | h
      · exact Or.inr (by simp [h])
      · exact Or.inl h
      · rcases mem_intersperse sep x (b :: t) h with h' | h'
        · exact Or.inl h'
        · exact Or.inr (List.mem_cons_of_mem _ h')

theorem filter_map_intersperse (f : Char → Char) :
    ∀ (ls : List (List Char)), (∀ x ∈ ls, x ≠ []) →
      ((List.intersperse [] ls).map (fun s => s.map f)).filter (fun s => !s.isEmpty)
        = ls.map (fun s => s.map f)
  | [], _ => rfl
  | [x], h => by
      have hx : x ≠ [] := h x (by simp)
      cases x with
      | nil => exact absurd rfl hx
      | cons c cs => simp [List.intersperse, List.filter]
  | x :: y :: t, h => by
      have hx : x ≠ [] := h x (by simp)
      have hrest := filter_map_intersperse f (y :: t) (fun z hz => h z (List.mem_cons_of_mem _ hz))
      cases x with
      | nil => exact absurd rfl hx
      | cons c cs =>
        simp only [List.intersperse, List.map_cons, List.filter]
        simpa using hrest

theorem mem_joinChars (sep : List Char) (c : Char) :
    ∀ (ls : List (List Char)), c ∈ joinChars sep ls → c ∈ sep ∨ ∃ x ∈ ls, c ∈ x
  | [], h => by simp [joinChars] at h
  | [x], h => by
      simp only [joinChars] at h
      exact Or.inr ⟨x, by simp, h⟩
  | x :: y :: t, h => by
      simp only [joinChars, List.append_assoc, List.mem_append] at h
      rcases h with h | h | h
      · exact Or.inr ⟨x, by simp, h⟩
      · exact Or.inl h
      · rcases mem_joinChars sep c (y :: t) h with h' | ⟨z, hz, hcz⟩
        · exact Or.inl h'
        · exact Or.inr ⟨z, List.mem_cons_of_mem _ hz, hcz⟩

theorem toUnixChars_chars (l : List Char) (c : Char) (hc : c ∈ toUnixChars l) :
    c = '_' ∨ ∃ d ∈ l, c = Char.toUpper d := by
  unfold toUnixChars at hc
  rcases mem_joinChars ['_'] c _ hc with h | ⟨x, hx, hcx⟩
  · exact Or.inl (by simpa using h)
  · have hx' := List.mem_of_mem_filter hx
    rcases List.mem_map.mp hx' with ⟨s, hs, rfl⟩
    rcases mem_intersperse [] s _ hs with rfl | hs'
    · simp at hcx
    · rcases List.mem_map.mp hcx with ⟨d, hd, rfl⟩
      exact Or.inr ⟨d, mem_splitCaps l s hs' d hd, rfl⟩

/-! ## Lemmas: JS string split -/

theorem jsSplitChars_ne_nil (sep : Char) : ∀ (l : List Char), jsSplitChars sep l ≠ []
  | [] => by simp [jsSplitChars]
  | c :: cs => by
      simp only [jsSplitChars]
      cases h : jsSplitChars sep cs with
      | nil => simp
      | cons hd tl =>
        by_cases hc : c = sep <;> simp [hc]

theorem jsSplitChars_cons_eq (sep d : Char) (ds hd : List Char) (tl : List (List Char))
    (h : jsSplitChars sep ds = hd :: tl) :
    jsSplitChars sep (d :: ds) = if d = sep then [] :: hd :: tl else (d :: hd) :: tl := by
  simp only [jsSplitChars, h]

theorem mem_jsSplitChars (sep c : Char) :
    ∀ (l : List Char) (p : List Char), p ∈ jsSplitChars sep l → c ∈ p → c ∈ l
  | [], p, hp, hcp => by
      simp only [jsSplitChars, List.mem_singleton] at hp
      subst hp
      simp at hcp
  | d :: ds, p, hp, hcp => by
      cases h : jsSplitChars sep ds with
      | nil => exact absurd h (jsSplitChars_ne_nil sep ds)
      | cons hd tl =>
        rw [jsSplitChars_cons_eq sep d ds hd tl h] at hp
        by_cases hdsep : d = sep
        · rw [if_pos hdsep] at hp
          rcases List.mem_cons.mp hp with rfl | hp'
          · simp at hcp
          · exact List.mem_cons_of_mem _
              (mem_jsSplitChars sep c ds p (by rw [h]; exact hp') hcp)
        · rw [if_neg hdsep] at hp
          rcases List.mem_cons.mp hp with rfl | hp'
          · rcases List.mem_cons.mp hcp with rfl | hcp'
            · exact List.mem_cons_self _ _
            · exact List.mem_cons_of_mem _
                (mem_jsSplitChars sep c ds hd (by rw [h]; exact List.mem_cons_self hd tl) hcp')
          · exact List.mem_cons_of_mem _
              (mem_jsSplitChars sep c ds p (by rw [h]; exact List.mem_cons_of_mem hd hp') hcp)

theorem jsSplitChars_sepFree (sep : Char) :
    ∀ (l : List Char), sep ∉ l → jsSplitChars sep l = [l]
  | [], _ => rfl
  | c :: cs, h => by
      have hc : c ≠ sep := fun hc => h (hc ▸ List.mem_cons_self _ _)
      have hcs : sep ∉ cs := fun hcs => h (List.mem_cons_of_mem _ hcs)
      simp only [jsSplitChars, jsSplitChars_sepFree sep cs hcs, if_neg hc]

theorem jsSplitChars_append (sep : Char) :
    ∀ (p l : List Char), sep ∉ p → jsSplitChars sep (p ++ sep :: l) = p :: jsSplitChars sep l
  | [], l, _ => by
      cases h : jsSplitChars sep l with
      | nil => exact absurd h (jsSplitChars_ne_nil sep l)
      | cons hd tl =>
        rw [List.nil_append, jsSplitChars_cons_eq sep sep l hd tl h, if_pos rfl]
  | c :: p', l, h => by
      have hc : c ≠ sep := fun hc => h (hc ▸ List.mem_cons_self _ _)
      have hp' : sep ∉ p' := fun hp => h (List.mem_cons_of_mem _ hp)
      have hrec := jsSplitChars_append sep p' l hp'
      cases hq : jsSplitChars sep l with
      | nil => exact absurd hq (jsSplitChars_ne_nil sep l)
      | cons hd tl =>
        rw [hq] at hrec
        rw [List.cons_append, jsSplitChars_cons_eq sep c (p' ++ sep :: l) p' (hd :: tl) hrec,
          if_neg hc]

theorem jsSplit_joinChars (sep : Char) :
    ∀ (ls : List (List Char)), ls ≠ [] → (∀ p ∈ ls, sep ∉ p) →
      jsSplitChars sep (joinChars [sep] ls) = ls
  | [], h, _ => absurd rfl h
  | [p], _, hfree => by
      simp only [joinChars]
      exact jsSplitChars_sepFree sep p (hfree p (by simp))
  | p :: q :: t, _, hfree => by
      have h1 : joinChars [sep] (p :: q :: t) = p ++ sep :: joinChars [sep] (q :: t) := by
        simp [joinChars]
      rw [h1, jsSplitChars_append sep p _ (hfree p (by simp)),
        jsSplit_joinChars sep (q :: t) (by simp) (fun z hz => hfree z (List.mem_cons_of_mem _ hz))]

/-! ## Lemmas: ASCII case functions -/

theorem char_toNat_ofNat (m : Nat) (hv : m.isValidChar) : (Char.ofNat m).toNat = m := by
  unfold Char.ofNat
  rw [dif_pos hv]
  rfl

theorem toLower_eq_space (c : Char) (h : Char.toLower c = ' ') : c = ' ' := by
  unfold Char.toLower at h
  by_cases hc : c.toNat ≥ 65 ∧ c.toNat ≤ 90
  · rw [if_pos hc] at h
    have h2 := char_toNat_ofNat (c.toNat + 32) (Or.inl (by omega))
    rw [h] at h2
    have h32 : (' ' : Char).toNat = 32 := by decide
    omega
  · rwa [if_neg hc] at h

theorem toUpper_eq_space (c : Char) (h : Char.toUpper c = ' ') : c = ' ' := by
  unfold Char.toUpper at h
  by_cases hc : c.toNat ≥ 97 ∧ c.toNat ≤ 122
  · rw [if_pos hc] at h
    have h2 := char_toNat_ofNat (c.toNat - 32) (Or.inl (by omega))
    rw [h] at h2
    have h32 : (' ' : Char).toNat = 32 := by decide
    omega
  · rwa [if_neg hc] at h

end ReduxHelper

namespace ReduxHelper

/-! ## Helper facts reused by several claims -/

theorem toUnixChars_eq_segments (l : List Char) :
    toUnixChars l = joinChars ['_'] ((splitCaps l).map (fun s => s.map Char.toUpper)) := by
  unfold toUnixChars
  rw [filter_map_intersperse Char.toUpper (splitCaps l) (splitCaps_ne_nil l)]

/-- C1: the metadata built for an ActionDescriptor is the last-write-wins
merge of its annotations in declaration order, with the configured feature
label assigned last so that it overrides any annotation named `feature`;
two `@foo` tags yield the second tag's argument under key `foo`. -/
theorem c1_metadata_merge (l k : String) (a : ActionDesc) (hl : l ≠ "") :
    getKey "feature" (getMeta (some l) a) = some (Json.str l)
    ∧ (k ≠ "feature" → getKey k (getMeta (some l) a) = lastArg k a.annotations)
    ∧ getKey k (getMeta none a) = lastArg k a.annotations
    ∧ getMeta none ⟨"Rec",
        [⟨"foo", Json.obj [("a", Json.num 1)]⟩, ⟨"foo", Json.obj [("b", Json.num 2)]⟩], []⟩
      = [("foo", Json.obj [("b", Json.num 2)])] := by
  have hbase : ∀ k' : String,
      getKey k' (a.annotations.foldl (fun acc ann => setKey ann.name ann.arg acc) [])
        = lastArg k' a.annotations := by
    intro k'
    rw [getKey_foldl]
    cases hres : lastArg k' a.annotations with
    | none => rfl
    | some v => rfl
  have hmeta : getMeta (some l) a
      = setKey "feature" (Json.str l)
          (a.annotations.foldl (fun acc ann => setKey ann.name ann.arg acc) []) := by
    have h0 : getMeta (some l) a
        = if l = "" then a.annotations.foldl (fun acc ann => setKey ann.name ann.arg acc) []
          else setKey "feature" (Json.str l)
            (a.annotations.foldl (fun acc ann => setKey ann.name ann.arg acc) []) := rfl
    rw [h0, if_neg hl]
  refine ⟨?_, ?_, ?_, rfl⟩
  · rw [hmeta, getKey_setKey, if_pos rfl]
  · intro hk
    rw [hmeta, getKey_setKey, if_neg (fun h => hk h.symm), hbase]
  · exact hbase k

/-- C2: `toUnixStyle` (the spec's `toConstantCase`) is total and equals the
segmentation-based description: split before each uppercase letter,
uppercase every segment, join with underscores; `goToThing` gives
`GO_TO_THING`. -/
theorem c2_toConstantCase (n : String) (h1 : n ≠ "") (h2 : identShaped n = true) :
    toUnixStyle n = toConstantCaseSpec n ∧ toUnixStyle "goToThing" = "GO_TO_THING" := by
  refine ⟨?_, by decide⟩
  unfold toUnixStyle toConstantCaseSpec
  rw [toUnixChars_eq_segments]

/-- C3: for identifier-shaped input, the words of `toSentence n` (split at
spaces) are exactly the lowercasings of the segments of `toUnixStyle n`
(split at underscores) — the two transforms segment identically;
`goToThing` segments as GO/TO/THING and go/to/thing. -/
theorem c3_segmentation (n : String) (h1 : n ≠ "") (h2 : identShaped n = true) :
    jsSplitOn ' ' (toSentence n) = (jsSplitOn '_' (toUnixStyle n)).map strLower
    ∧ jsSplitOn '_' (toUnixStyle "goToThing") = ["GO", "TO", "THING"]
    ∧ jsSplitOn ' ' (toSentence "goToThing") = ["go", "to", "thing"] := by
  refine ⟨?_, by decide, by decide⟩
  have hid : ∀ c ∈ n.data, isIdentChar c = true := List.all_eq_true.mp h2
  have hnospace : ∀ p ∈ (jsSplitChars '_' (toUnixChars n.data)).map (fun s => s.map Char.toLower),
      ' ' ∉ p := by
    intro p hp hmem
    rcases List.mem_map.mp hp with ⟨q, hq, rfl⟩
    rcases List.mem_map.mp hmem with ⟨c, hcq, hlow⟩
    have hcu : c ∈ toUnixChars n.data := mem_jsSplitChars '_' c (toUnixChars n.data) q hq hcq
    rcases toUnixChars_chars n.data c hcu with rfl | ⟨d, hd, rfl⟩
    · exact absurd hlow (by decide)
    · have hd' : d = ' ' := toUpper_eq_space d (toLower_eq_space _ hlow)
      rw [hd'] at hd
      exact absurd (hid ' ' hd) (by decide)
  have hne : (jsSplitChars '_' (toUnixChars n.data)).map (fun s => s.map Char.toLower) ≠ [] := by
    intro hmap
    exact jsSplitChars_ne_nil '_' (toUnixChars n.data) (List.map_eq_nil_iff.mp hmap)
  have key : jsSplitChars ' ' (toSentenceChars n.data)
      = (jsSplitChars '_' (toUnixChars n.data)).map (fun s => s.map Char.toLower) := by
    unfold toSentenceChars
    exact jsSplit_joinChars ' ' _ hne hnospace
  show (jsSplitChars ' ' (toSentenceChars n.data)).map String.mk
      = ((jsSplitChars '_' (toUnixChars n.data)).map String.mk).map strLower
  rw [key, List.map_map, List.map_map]
  rfl

/-- C4: every enum constant's value is `toSentence` of the record name,
prefixed with `"[<feature>] "` exactly when a feature label is configured,
uniformly across the run; with feature `auth`, `AttemptLogin` gets value
`"[auth] attempt login"` and metadata `\x7b"feature": "auth"\x7d`. -/
theorem c4_enum_values (l : String) (a : ActionDesc) (actions : List ActionDesc) (hl : l ≠ "") :
    getActionTypeValue (some l) a = "[" ++ l ++ "] " ++ toSentence a.name
    ∧ getActionTypeValue none a = toSentence a.name
    ∧ genActionsEnum (some l) actions
        = String.intercalate "\n"
            (["export enum Actions \x7b"] ++
             actions.map (fun x =>
               "  " ++ toUnixStyle x.name ++ " = \"" ++ ("[" ++ l ++ "] " ++ toSentence x.name) ++ "\",") ++
             ["\x7d"])
    ∧ genActionsEnum none actions
        = String.intercalate "\n"
            (["export enum Actions \x7b"] ++
             actions.map (fun x => "  " ++ toUnixStyle x.name ++ " = \"" ++ toSentence x.name ++ "\",") ++
             ["\x7d"])
    ∧ getActionTypeValue (some "auth")
        ⟨"AttemptLogin", [], [⟨"username", "string", false⟩, ⟨"password", "string", false⟩]⟩
      = "[auth] attempt login"
    ∧ getMeta (some "auth")
        ⟨"AttemptLogin", [], [⟨"username", "string", false⟩, ⟨"password", "string", false⟩]⟩
      = [("feature", Json.str "auth")] := by
  have hval : ∀ x : ActionDesc,
      getActionTypeValue (some l) x = "[" ++ l ++ "] " ++ toSentence x.name := by
    intro x
    have h0 : getActionTypeValue (some l) x
        = (if l = "" then "" else "[" ++ l ++ "] ") ++ toSentence x.name := rfl
    rw [h0, if_neg hl]
  have hmap : ∀ xs : List ActionDesc,
      xs.map (fun x => "  " ++ toUnixStyle x.name ++ " = \"" ++ getActionTypeValue (some l) x ++ "\",")
        = xs.map (fun x =>
            "  " ++ toUnixStyle x.name ++ " = \"" ++ ("[" ++ l ++ "] " ++ toSentence x.name) ++ "\",") := by
    intro xs
    induction xs with
    | nil => rfl
    | cons hd tl ih => simp only [List.map_cons, ih, hval hd]
  refine ⟨hval a, rfl, ?_, rfl, rfl, rfl⟩
  unfold genActionsEnum
  rw [hmap actions]

/-- C5: each emitted constructor function is named `uncapitalise` of the
record name, takes exactly the record's fields (optionality marker and
opaque type text preserved, in order), and returns a value whose `type` is
the enum constant, whose `payload` lists the field names in order, and
whose `meta` is fetched from the metadata table by the enum constant. -/
theorem c5_action_creator (feature : Option String) (a : ActionDesc) :
    genActionCreator feature a
      = String.intercalate "\n"
          (["export function " ++ uncapitalise a.name ++ "("] ++
           a.fields.map (fun f => "  " ++ f.name ++ (if f.optional then "?" else "") ++ ": " ++ f.type ++ ",") ++
           ["): " ++ (a.name ++ "Action") ++ " \x7b",
            "  return \x7b",
            "    type: Actions." ++ toUnixStyle a.name ++ ",",
            "    payload: \x7b"] ++
           a.fields.map (fun f => "      " ++ f.name ++ ",") ++
           ["    \x7d,",
            "    meta: metadata[Actions." ++ toUnixStyle a.name ++ "],",
            "  \x7d;",
            "\x7d"])
    ∧ uncapitalise "GoToThing" = "goToThing" :=
  ⟨rfl, rfl⟩

/-- C6: a tag with empty or absent argument text yields `arg = true`; a tag
with parseable text yields the parsed value; unparseable text is a fatal
error with no defaulting, failing the whole annotation list, and an
extraction error makes the run emit nothing. -/
theorem c6_annotation_args (parse : String → Option Json) (name t : String) (v : Json)
    (tags rest : List (String × Option String)) (feature : Option String) (e : String)
    (ht : t ≠ "") :
    annFromTag parse (name, none) = some ⟨name, Json.bool true⟩
    ∧ annFromTag parse (name, some "") = some ⟨name, Json.bool true⟩
    ∧ (parse t = some v → annFromTag parse (name, some t) = some ⟨name, v⟩)
    ∧ (parse t = none → annFromTag parse (name, some t) = none)
    ∧ (parse t = none → parseAnnotations parse (tags ++ (name, some t) :: rest) = none)
    ∧ run feature (.error e) = .error e := by
  have hbad : parse t = none → annFromTag parse (name, some t) = none := by
    intro hp
    simp [annFromTag, ht, hp]
  refine ⟨rfl, rfl, ?_, hbad, ?_, rfl⟩
  · intro hp
    simp [annFromTag, ht, hp]
  · intro hp
    induction tags with
    | nil =>
      simp only [List.nil_append, parseAnnotations, List.mapM_cons, hbad hp]
      rfl
    | cons x tags' ih =>
      rw [List.cons_append]
      show (x :: (tags' ++ (name, some t) :: rest)).mapM (annFromTag parse) = none
      rw [List.mapM_cons]
      have ih' : (tags' ++ (name, some t) :: rest).mapM (annFromTag parse) = none := ih
      simp only [ih']
      cases annFromTag parse x <;> rfl

/-- C7 counterexample: on the empty input the actual write sequence is not
the claimed one — the claim omits the blank separator the code emits
between the payload types and the union type. -/
theorem c7_counterexample :
    runWrites none [] []
      ≠ [some "import * as redux from \"redux\"",
         some "import * as actions from \"./actions\";\n",
         some (String.intercalate "\n" [] ++ "\n"),
         some (genActionsEnum none []),
         none,
         some (genMetadata none []),
         none,
         some payloadActionDefinition,
         some (genActionTypes []),
         some (genActionsUnion []),
         none,
         some (genActionCreators none [])] := by
  decide

/-- C7 amended: the write sequence is the claimed one with one more blank
separator, between the per-record payload types and the union type. -/
theorem c7_write_order (feature : Option String) (actions : List ActionDesc)
    (imports : List String) :
    runWrites feature actions imports
      = [some "import * as redux from \"redux\"",
         some "import * as actions from \"./actions\";\n",
         some (String.intercalate "\n" imports ++ "\n"),
         some (genActionsEnum feature actions),
         none,
         some (genMetadata feature actions),
         none,
         some payloadActionDefinition,
         some (genActionTypes actions),
         none,
         some (genActionsUnion actions),
         none,
         some (genActionCreators feature actions)] :=
  rfl

/-- C8: a parse-successful input with zero records succeeds and produces the
structurally well-formed near-empty output: empty enum body, empty metadata
table, empty union. -/
theorem c8_zero_records (feature : Option String) (imports : List String) :
    run feature (.ok ([], imports)) = .ok (runWrites feature [] imports)
    ∧ genActionsEnum feature [] = "export enum Actions \x7b\n\x7d"
    ∧ genMetadata feature [] = "export const metadata = \x7b\n\x7d;"
    ∧ genActionsUnion [] = "export type Action = \n  ;"
    ∧ genActionTypes [] = ""
    ∧ genActionCreators feature [] = "" :=
  ⟨rfl, rfl, rfl, rfl, rfl, rfl⟩

/-- C9: emission is deterministic — identical descriptor sequence, metadata
inputs and feature label give byte-identical write sequences. -/
theorem c9_determinism (f1 f2 : Option String) (a1 a2 : List ActionDesc) (i1 i2 : List String)
    (hf : f1 = f2) (ha : a1 = a2) (hi : i1 = i2) :
    runWrites f1 a1 i1 = runWrites f2 a2 i2 := by
  subst hf
  subst ha
  subst hi
  rfl

/-- C10: annotations never influence the payload-type text or the
constructor text — descriptors equal up to annotations generate identical
`genActionType` and `genActionCreator` output. -/
theorem c10_annotation_noninterference (feature : Option String) (nm : String)
    (fs : List ActionField) (anns1 anns2 : List Annotation ) :
    genActionType ⟨nm, anns1, fs⟩ = genActionType ⟨nm, anns2, fs⟩
    ∧ genActionCreator feature ⟨nm, anns1, fs⟩ = genActionCreator feature ⟨nm, anns2, fs⟩ :=
  ⟨rfl, rfl⟩

/-! ## Witnesses -/

theorem c1_metadata_merge_witness :
    getKey "feature" (getMeta (some "auth") ⟨"AttemptLogin", [], []⟩) = some (Json.str "auth") :=
  (c1_metadata_merge "auth" "x" ⟨"AttemptLogin", [], []⟩ (by decide)).1

theorem c2_toConstantCase_witness : toUnixStyle "goToThing" = "GO_TO_THING" :=
  (c2_toConstantCase "goToThing" (by decide) (by decide)).2

theorem c3_segmentation_witness : jsSplitOn '_' (toUnixStyle "goToThing") = ["GO", "TO", "THING"] :=
  (c3_segmentation "goToThing" (by decide) (by decide)).2.1

theorem c4_enum_values_witness :
    getActionTypeValue none ⟨"GoToThing", [], []⟩ = toSentence "GoToThing" :=
  (c4_enum_values "auth" ⟨"GoToThing", [], []⟩ [] (by decide)).2.1

theorem c6_annotation_args_witness :
    annFromTag (fun _ => none) ("userGenerated", none) = some ⟨"userGenerated", Json.bool true⟩ :=
  (c6_annotation_args (fun _ => none) "userGenerated" "x" (Json.bool true) [] [] none "err"
    (by decide)).1

theorem c9_determinism_witness : runWrites none [] [] = runWrites none [] [] :=
  c9_determinism none none [] [] [] [] rfl rfl rfl

end ReduxHelper
